import Mathlib

/-!
Verification of the crossbeam-deque work-stealing queues.

The crate surface under `src/crossbeam-deque/src/` consists of the façade
`std_deque.rs` (types `Worker`, `Stealer`, `Injector` and re-export of
`Steal`) and `lib.rs`; every façade method delegates to the submodule
`deque_impl`, which is not part of the provided sources.  Following the
specification (§4 "COMPONENT DESIGN"), we model the missing engine as a
sequential shallow embedding: each queue operation is one atomic step, the
64-bit wrapping counters `front`/`back` become `Int` (the executions we
consider start from a fresh queue and perform finitely many operations, so
the counters stay far from the 2^63 wrap boundary; the one place where the
sign matters — the speculative decrement `back - 1` of a LIFO pop on an
empty queue — is exactly what `Int` captures, matching the signed wrapping
comparison of the engine), and the CAS races that concurrency introduces
are exposed as explicit boolean oracles (`casOk`): `casOk = true` models an
uncontended CAS, `casOk = false` a CAS lost to a concurrent competitor.
-/

namespace Crossbeam

/-- Modelled from the spec: the `Steal` result type of `deque_impl` (spec
§4.4), re-exported by `std_deque.rs`: variants `Empty`, `Retry`,
`Success(payload)`. -/
inductive Steal (T : Type) where
  | Empty : Steal T
  | Retry : Steal T
  | Success (task : T) : Steal T
  deriving DecidableEq, Repr

namespace Steal

/-- Modelled from the spec: inspector `is_retry()` (spec §4.4). -/
def is_retry {T : Type} : Steal T → Bool
  | .Retry => true
  | _ => false

/-- Modelled from the spec: extractor `success() → Option<payload>` (spec §4.4). -/
def success {T : Type} : Steal T → Option T
  | .Success t => some t
  | _ => none

/-- Modelled from the spec: combination of two steal results, used by
`or_else` in the `find_task` idiom of `lib.rs`: `Success` dominates,
`Empty + Empty = Empty`, and any `Retry` forces at least `Retry`
(spec §6, "composable such that ..."). -/
def or_else {T : Type} (s : Steal T) (f : Unit → Steal T) : Steal T :=
  match s with
  | .Success t => .Success t
  | .Empty => f ()
  | .Retry =>
    match f () with
    | .Success t => .Success t
    | _ => .Retry

end Steal

/-- Modelled from the spec: folding a list of steal results, tracking
whether a `Retry` has been seen; the Rust `FromIterator` impl used by
`collect()` in the `find_task` idiom of `lib.rs` (spec §6): the first
`Success` short-circuits, otherwise the fold yields `Retry` when any
element was `Retry` and `Empty` when all were `Empty`. -/
def collectGo {T : Type} : List (Steal T) → Bool → Steal T
  | [], r => if r then .Retry else .Empty
  | s :: rest, r =>
    match s with
    | .Success t => .Success t
    | .Retry => collectGo rest true
    | .Empty => collectGo rest r

/-- Modelled from the spec: combining a whole sequence of steal results
(the `collect` of the canonical idiom in `lib.rs`). -/
def collectSteals {T : Type} (l : List (Steal T)) : Steal T :=
  collectGo l false

/-- Modelled from the spec: the orientation tag of a worker queue,
immutable after creation (spec §3). -/
inductive Flavor where
  | Fifo : Flavor
  | Lifo : Flavor
  deriving DecidableEq, Repr

/-- Modelled from the spec: the small minimum buffer capacity (spec §3,
"capacity ≥ a small minimum (e.g. 64)"). -/
def MIN_CAP : Nat := 64

/-- Modelled from the spec: the constant bound on batch-steal size (spec
§4.2, "bounded by a constant (e.g. 32)"). -/
def BATCH : Nat := 32

/-- Modelled from the spec: the shared state of `deque_impl::Worker` (spec
§3): monotonically advancing counters `front` (where stealers take) and
`back` (where the owner pushes/pops), a power-of-two circular buffer of
task slots (slot position is `index mod capacity`; the buffer is modelled
as a total function from slot positions to tasks, unwritten slots holding
the junk value `default`), and the orientation tag.  A `Stealer` is a
shared handle onto this same record, so stealer operations below take the
same state type. -/
structure Worker (T : Type) where
  front : Int
  back : Int
  cap : Nat
  buf : Int → T
  flavor : Flavor

namespace Worker

variable {T : Type}

/-- Modelled from the spec: `Worker::new_fifo()` — a fresh empty FIFO
worker with a minimum-capacity buffer (spec §3 "Lifecycle"). -/
def new_fifo [Inhabited T] : Worker T :=
  { front := 0, back := 0, cap := MIN_CAP, buf := fun _ => default, flavor := .Fifo }

/-- Modelled from the spec: `Worker::new_lifo()`. -/
def new_lifo [Inhabited T] : Worker T :=
  { front := 0, back := 0, cap := MIN_CAP, buf := fun _ => default, flavor := .Lifo }

/-- Modelled from the spec: `Worker::is_empty` — compares the two
counters; the queue is empty iff no live index lies in `[front, back)`.
`Stealer::is_empty` and the façade's `Worker::is_empty` both read the same
shared record, so both are this function. -/
def is_empty (s : Worker T) : Bool :=
  s.back ≤ s.front

/-- Modelled from the spec: buffer replacement during growth or shrink
(spec §4.1): allocate a buffer of capacity `c'` and copy the live range
`[front, back)` into it at identical index-mod-capacity positions.  The
new buffer is expressed by the inverse map: position `j` holds the task of
the unique live index `i` with `i mod c' = j`, namely
`i = front + ((j - front) mod c')` when that offset falls inside the live
range; other positions hold junk. -/
def resize [Inhabited T] (s : Worker T) (c' : Nat) : Worker T :=
  { s with
    cap := c'
    buf := fun j =>
      let k := (j - s.front) % (c' : Int)
      if k < s.back - s.front then s.buf ((s.front + k) % (s.cap : Int)) else default }

/-- Modelled from the spec: `Worker::push` (spec §4.1): if the buffer is
full (`back − front ≥ capacity`) grow to double capacity, then write the
task into slot `back mod capacity` and publish `back + 1`. -/
def push [Inhabited T] (s : Worker T) (x : T) : Worker T :=
  let s1 := if (s.cap : Int) ≤ s.back - s.front then s.resize (2 * s.cap) else s
  { s1 with
    back := s1.back + 1
    buf := fun j => if j = s1.back % (s1.cap : Int) then x else s1.buf j }

/-- Modelled from the spec: the shrink policy applied by pop (spec §4.1):
when `back − front ≤ capacity/4` and the capacity exceeds the minimum,
replace the buffer by one of half capacity. -/
def maybeShrink [Inhabited T] (s : Worker T) : Worker T :=
  if s.back - s.front ≤ ((s.cap / 4 : Nat) : Int) ∧ MIN_CAP < s.cap then
    s.resize (s.cap / 2)
  else s

/-- Modelled from the spec: the FIFO owner pop (spec §4.1): "same protocol
as a steal performed by the owner — CAS-advance `front`"; the owner's CAS
cannot lose (only stealers contend, and they advance `front` too, so an
owner sequential step always sees its own observation): if the queue is
empty return none, otherwise take slot `front mod capacity` and advance
`front`.  May trigger buffer shrink. -/
def popFifo [Inhabited T] (s : Worker T) : Option T × Worker T :=
  if s.back ≤ s.front then (none, s)
  else
    let x := s.buf (s.front % (s.cap : Int))
    (some x, maybeShrink { s with front := s.front + 1 })

/-- Modelled from the spec: the LIFO owner pop (spec §4.1): decrement
`back` speculatively; if the queue turned out empty restore `back = front`
and return none; if more than one task remains take slot
`b mod capacity`; if exactly one task remains, win the CAS race on `front`
(no concurrent stealer in the sequential model), take the slot, and set
`front = back = front + 1`.  May trigger buffer shrink. -/
def popLifo [Inhabited T] (s : Worker T) : Option T × Worker T :=
  let b := s.back - 1
  if b < s.front then (none, { s with back := s.front })
  else
    let x := s.buf (b % (s.cap : Int))
    if s.front < b then (some x, maybeShrink { s with back := b })
    else (some x, maybeShrink { s with front := s.front + 1, back := s.front + 1 })

/-- Modelled from the spec: `Worker::pop` — the orientation only reroutes
the owner's pop (spec §2). -/
def pop [Inhabited T] (s : Worker T) : Option T × Worker T :=
  match s.flavor with
  | .Fifo => popFifo s
  | .Lifo => popLifo s

/-- Modelled from the spec: `Stealer::steal` (spec §4.2): read `front`
then `back`; if `back ≤ front` return `Empty`; otherwise read slot
`front mod capacity` and CAS-advance `front`.  `casOk` tells whether the
CAS wins (it loses only to a concurrent competitor); on failure the result
is `Retry` and nothing is consumed. -/
def steal [Inhabited T] (s : Worker T) (casOk : Bool) : Steal T × Worker T :=
  if s.back ≤ s.front then (.Empty, s)
  else
    let x := s.buf (s.front % (s.cap : Int))
    if casOk then (.Success x, { s with front := s.front + 1 })
    else (.Retry, s)

/-- Modelled from the spec: the batch size
`k = min(constant, max(1, (back − front)/2))` of a batch steal (spec §4.2). -/
def batchSize (s : Worker T) : Nat :=
  min BATCH (max 1 ((s.back - s.front).toNat / 2))

/-- Modelled from the spec: the linear read of slots `[front, front + k)`
performed by a batch steal (spec §4.2), oldest first. -/
def stolenRun (s : Worker T) (k : Nat) : List T :=
  (List.range k).map (fun (i : Nat) => s.buf ((s.front + (i : Int)) % (s.cap : Int)))

/-- Modelled from the spec: depositing a stolen block into `dest` with
owner-writes on `dest.back` (spec §4.2): a FIFO `dest` receives the block
in source order; a LIFO `dest` receives it reversed so that a subsequent
LIFO pop returns the oldest-stolen task first. -/
def deposit [Inhabited T] (dest : Worker T) (run : List T) : Worker T :=
  match dest.flavor with
  | .Fifo => run.foldl push dest
  | .Lifo => run.reverse.foldl push dest

/-- Modelled from the spec: `Stealer::steal_batch` (spec §4.2): read
`k = batchSize` slots from the front, CAS-advance `front` by `k` (on CAS
failure discard the reads and return `Retry`), and on success transfer the
block into `dest`. -/
def steal_batch [Inhabited T] (s : Worker T) (dest : Worker T) (casOk : Bool) :
    Steal Unit × Worker T × Worker T :=
  if s.back ≤ s.front then (.Empty, s, dest)
  else
    let k := batchSize s
    let run := stolenRun s k
    if casOk then (.Success (), { s with front := s.front + (k : Int) }, deposit dest run)
    else (.Retry, s, dest)

/-- Modelled from the spec: `Stealer::steal_batch_and_pop` (spec §4.2):
the same batch extraction, but the first (oldest) task is returned
directly and only the remainder is deposited into `dest`. -/
def steal_batch_and_pop [Inhabited T] (s : Worker T) (dest : Worker T) (casOk : Bool) :
    Steal T × Worker T × Worker T :=
  if s.back ≤ s.front then (.Empty, s, dest)
  else
    let k := batchSize s
    if casOk then
      match stolenRun s k with
      | [] => (.Empty, s, dest)
      | x :: rest =>
        (.Success x, { s with front := s.front + (k : Int) }, deposit dest rest)
    else (.Retry, s, dest)

end Worker

/-- Modelled from the spec: the abstract contents of a worker's shared
record: `s` holds exactly the task list `xs` (oldest first, i.e. `xs`
lists the live range `[front, back)` in index order).  This is the
basic well-formedness relation of the sequential model: the counters
satisfy `back = front + |xs|`, the live range fits the buffer
(`|xs| ≤ capacity > 0`, spec §3 "Invariants"), and slot
`(front + k) mod capacity` holds the k-th task. -/
def Represents {T : Type} (s : Worker T) (xs : List T) : Prop :=
  s.back = s.front + (xs.length : Int) ∧
  xs.length ≤ s.cap ∧
  0 < s.cap ∧
  ∀ k : Nat, (hk : k < xs.length) →
    s.buf ((s.front + (k : Int)) % (s.cap : Int)) = xs.get ⟨k, hk⟩

instance {T : Type} [DecidableEq T] (s : Worker T) (xs : List T) :
    Decidable (Represents s xs) := by
  unfold Represents
  infer_instance

/-- Modelled from the spec: the number N of slots in an injector block
(spec §3, "a fixed number N of slots (e.g. 31 or 32)"). -/
def BLOCK : Nat := 32

/-- Modelled from the spec: the shared state of `deque_impl::Injector`
(spec §3 and §4.3), an unbounded multi-producer/multi-consumer FIFO built
from a linked chain of `BLOCK`-slot blocks.  Sequentially the chain is
determined by two global slot counters: a slot counter `i` lives in block
number `i / BLOCK` at in-block offset `i mod BLOCK`; `headIdx` is the
`head` block's consume position, `tailIdx` the `tail` block's produce
position.  Slot-state transitions collapse in the sequential model (a push
completes EMPTY → WRITING → READY before the next operation starts, and a
consumed slot is READ exactly when `headIdx` has moved past it), and block
allocation/unlinking is memory management with no observable effect on
values, so the slots are modelled as one total function. -/
structure Injector (T : Type) where
  headIdx : Nat
  tailIdx : Nat
  slots : Nat → T

namespace Injector

variable {T : Type}

/-- Modelled from the spec: `Injector::new()` — one empty block (spec §3
"Lifecycle"). -/
def new [Inhabited T] : Injector T :=
  { headIdx := 0, tailIdx := 0, slots := fun _ => default }

/-- Modelled from the spec: `Injector::is_empty` — no live slot between
head and tail. -/
def is_empty (q : Injector T) : Bool :=
  q.tailIdx ≤ q.headIdx

/-- Modelled from the spec: `Injector::push` (spec §4.3): claim the tail
slot, write the task, publish it READY. -/
def push (q : Injector T) (x : T) : Injector T :=
  { q with
    tailIdx := q.tailIdx + 1
    slots := fun j => if j = q.tailIdx then x else q.slots j }

/-- Modelled from the spec: `Injector::steal` (spec §4.3): if the queue is
empty return `Empty`; otherwise claim the head slot.  `ok` tells whether
the claim goes through cleanly (the CAS wins and the slot is READY); when
it does not — a concurrent competitor, or a producer still inside its
WRITING window — the result is `Retry` and nothing is consumed. -/
def steal (q : Injector T) (ok : Bool) : Steal T × Injector T :=
  if q.tailIdx ≤ q.headIdx then (.Empty, q)
  else if ok then (.Success (q.slots q.headIdx), { q with headIdx := q.headIdx + 1 })
  else (.Retry, q)

/-- Modelled from the spec: the injector's batch size (spec §4.3): the
same "approximately half, up to a constant" sizing as the stealer's,
additionally bounded by the slots remaining in the current head block. -/
def batchSize (q : Injector T) : Nat :=
  min (min BATCH (max 1 ((q.tailIdx - q.headIdx) / 2))) (BLOCK - q.headIdx % BLOCK)

/-- Modelled from the spec: the linear read of the reserved run of head
slots during an injector batch steal (spec §4.3), oldest first. -/
def stolenRun (q : Injector T) (k : Nat) : List T :=
  (List.range k).map (fun i => q.slots (q.headIdx + i))

/-- Modelled from the spec: `Injector::steal_batch` (spec §4.3): reserve a
run of `batchSize` head slots by one CAS on the head index, read them in
order, and transfer them into `dest` exactly as a stealer batch does; on a
failed reservation (`ok = false`) nothing is consumed and the result is
`Retry`. -/
def steal_batch [Inhabited T] (q : Injector T) (dest : Worker T) (ok : Bool) :
    Steal Unit × Injector T × Worker T :=
  if q.tailIdx ≤ q.headIdx then (.Empty, q, dest)
  else
    let k := batchSize q
    if ok then (.Success (), { q with headIdx := q.headIdx + k }, Worker.deposit dest (stolenRun q k))
    else (.Retry, q, dest)

/-- Modelled from the spec: `Injector::steal_batch_and_pop` (spec §4.2 and
§4.3): same batch extraction, the first (oldest) task is returned directly
and the remainder deposited into `dest`. -/
def steal_batch_and_pop [Inhabited T] (q : Injector T) (dest : Worker T) (ok : Bool) :
    Steal T × Injector T × Worker T :=
  if q.tailIdx ≤ q.headIdx then (.Empty, q, dest)
  else
    let k := batchSize q
    if ok then
      match stolenRun q k with
      | [] => (.Empty, q, dest)
      | x :: rest =>
        (.Success x, { q with headIdx := q.headIdx + k }, Worker.deposit dest rest)
    else (.Retry, q, dest)

end Injector

/-- Modelled from the spec: the abstract contents of an injector: `q`
holds exactly the task list `xs`, oldest first. -/
def InjRepresents {T : Type} (q : Injector T) (xs : List T) : Prop :=
  q.tailIdx = q.headIdx + xs.length ∧
  ∀ k : Nat, (hk : k < xs.length) → q.slots (q.headIdx + k) = xs.get ⟨k, hk⟩

instance {T : Type} [DecidableEq T] (q : Injector T) (xs : List T) :
    Decidable (InjRepresents q xs) := by
  unfold InjRepresents
  infer_instance

/-- Pushing a whole list of tasks into a worker, in order. -/
def pushAll {T : Type} [Inhabited T] (s : Worker T) (xs : List T) : Worker T :=
  xs.foldl Worker.push s

/-- Pushing a whole list of tasks into an injector, in order. -/
def injPushAll {T : Type} (q : Injector T) (xs : List T) : Injector T :=
  xs.foldl Injector.push q

/-- Performing `n` owner pops in a row, collecting the results. -/
def popRun {T : Type} [Inhabited T] : Worker T → Nat → List (Option T) × Worker T
  | s, 0 => ([], s)
  | s, n + 1 =>
    let p := s.pop
    let r := popRun p.2 n
    (p.1 :: r.1, r.2)

/-- Performing `n` uncontended steals in a row on a worker, collecting the
results. -/
def stealRun {T : Type} [Inhabited T] : Worker T → Nat → List (Steal T) × Worker T
  | s, 0 => ([], s)
  | s, n + 1 =>
    let p := s.steal true
    let r := stealRun p.2 n
    (p.1 :: r.1, r.2)

/-- Performing `n` uncontended steals in a row on an injector, collecting
the results. -/
def injStealRun {T : Type} : Injector T → Nat → List (Steal T) × Injector T
  | q, 0 => ([], q)
  | q, n + 1 =>
    let p := q.steal true
    let r := injStealRun p.2 n
    (p.1 :: r.1, r.2)

/-! Arithmetic helpers about the circular-buffer index map `i ↦ i % cap`. -/

/-- Two offsets below the capacity that land on the same slot are equal:
the index map is injective on any window of at most `cap` indices. -/
theorem emod_add_inj {c f a b : Int} (hc : 0 < c) (ha0 : 0 ≤ a) (hac : a < c)
    (hb0 : 0 ≤ b) (hbc : b < c) (h : (f + a) % c = (f + b) % c) : a = b := by
  have hd : c ∣ (f + b) - (f + a) := Int.ModEq.dvd h
  have he : (f + b) - (f + a) = b - a := by ring
  rw [he] at hd
  obtain ⟨t, ht⟩ := hd
  have h1 : t < 1 := by
    by_contra hcon
    push_neg at hcon
    nlinarith
  have h2 : -1 < t := by
    by_contra hcon
    push_neg at hcon
    nlinarith
  have ht0 : t = 0 := by omega
  subst ht0
  simp at ht
  omega

/-- Recovering an offset from the slot where it lands. -/
theorem emod_sub_shift (f c k : Int) : ((f + k) % c - f) % c = k % c := by
  rw [Int.sub_emod, Int.emod_emod_of_dvd _ dvd_rfl, ← Int.sub_emod, add_sub_cancel_left]

namespace Worker

variable {T : Type}

@[simp] theorem resize_front [Inhabited T] (s : Worker T) (c' : Nat) :
    (s.resize c').front = s.front := rfl

@[simp] theorem resize_back [Inhabited T] (s : Worker T) (c' : Nat) :
    (s.resize c').back = s.back := rfl

@[simp] theorem resize_flavor [Inhabited T] (s : Worker T) (c' : Nat) :
    (s.resize c').flavor = s.flavor := rfl

@[simp] theorem resize_cap [Inhabited T] (s : Worker T) (c' : Nat) :
    (s.resize c').cap = c' := rfl

@[simp] theorem maybeShrink_front [Inhabited T] (s : Worker T) :
    s.maybeShrink.front = s.front := by
  unfold maybeShrink
  split <;> rfl

@[simp] theorem maybeShrink_back [Inhabited T] (s : Worker T) :
    s.maybeShrink.back = s.back := by
  unfold maybeShrink
  split <;> rfl

@[simp] theorem maybeShrink_flavor [Inhabited T] (s : Worker T) :
    s.maybeShrink.flavor = s.flavor := by
  unfold maybeShrink
  split <;> rfl

@[simp] theorem push_front [Inhabited T] (s : Worker T) (x : T) :
    (s.push x).front = s.front := by
  unfold push
  split <;> rfl

@[simp] theorem push_back [Inhabited T] (s : Worker T) (x : T) :
    (s.push x).back = s.back + 1 := by
  unfold push
  split <;> rfl

@[simp] theorem push_flavor [Inhabited T] (s : Worker T) (x : T) :
    (s.push x).flavor = s.flavor := by
  unfold push
  split <;> rfl

end Worker

/-- A resize to any capacity that still fits the live range preserves the
abstract contents: the copy places index `i` of the live range at slot
`i mod c'`. -/
theorem represents_resize {T : Type} [Inhabited T] {s : Worker T} {xs : List T} {c' : Nat}
    (h : Represents s xs) (hlen : xs.length ≤ c') (hc : 0 < c') :
    Represents (s.resize c') xs := by
  obtain ⟨hb, _, _, hslot⟩ := h
  refine ⟨hb, hlen, hc, ?_⟩
  intro k hk
  have hk0 : (0 : Int) ≤ (k : Int) := Int.natCast_nonneg k
  have hkc : (k : Int) < (c' : Int) := by exact_mod_cast lt_of_lt_of_le hk hlen
  have hmod : ((k : Int)) % (c' : Int) = (k : Int) := Int.emod_eq_of_lt hk0 hkc
  have hcond : ((k : Int)) < s.back - s.front := by
    rw [hb]
    omega
  simp only [Worker.resize, emod_sub_shift, hmod, if_pos hcond]
  exact hslot k hk

/-- The shrink policy preserves the abstract contents. -/
theorem represents_maybeShrink {T : Type} [Inhabited T] {s : Worker T} {xs : List T}
    (h : Represents s xs) : Represents s.maybeShrink xs := by
  unfold Worker.maybeShrink
  split
  case isTrue hcond =>
    obtain ⟨hsmall, hbig⟩ := hcond
    have hb := h.1
    have hbig' : 64 < s.cap := hbig
    have hlen : (xs.length : Int) ≤ ((s.cap / 4 : Nat) : Int) := by omega
    have hlen' : xs.length ≤ s.cap / 4 := by exact_mod_cast hlen
    exact represents_resize h (by omega) (by omega)
  case isFalse => exact h

/-- A fresh FIFO worker is empty. -/
theorem represents_new_fifo (T : Type) [Inhabited T] :
    Represents (Worker.new_fifo (T := T)) [] := by
  refine ⟨by simp [Worker.new_fifo], by simp [Worker.new_fifo], by simp [Worker.new_fifo, MIN_CAP], ?_⟩
  intro k hk
  simp at hk

/-- A fresh LIFO worker is empty. -/
theorem represents_new_lifo (T : Type) [Inhabited T] :
    Represents (Worker.new_lifo (T := T)) [] := by
  refine ⟨by simp [Worker.new_lifo], by simp [Worker.new_lifo], by simp [Worker.new_lifo, MIN_CAP], ?_⟩
  intro k hk
  simp at hk

/-- The write step of a push: with strict room in the buffer, writing into
slot `back mod cap` and publishing `back + 1` appends the task. -/
theorem represents_write {T : Type} [Inhabited T] {s : Worker T} {xs : List T} (x : T)
    (h : Represents s xs) (hroom : xs.length < s.cap) :
    Represents
      { s with
        back := s.back + 1
        buf := fun j => if j = s.back % (s.cap : Int) then x else s.buf j }
      (xs ++ [x]) := by
  obtain ⟨hb, _, hcap, hslot⟩ := h
  refine ⟨?_, ?_, hcap, ?_⟩
  · dsimp only
    simp only [List.length_append, List.length_singleton]
    rw [hb]
    push_cast
    ring
  · simp only [List.length_append, List.length_singleton]
    omega
  · intro k hk
    dsimp only
    have hk' : k < xs.length + 1 := by
      simpa using hk
    by_cases hke : k = xs.length
    · subst hke
      have hidx : (s.front + (xs.length : Int)) % (s.cap : Int) = s.back % (s.cap : Int) := by
        rw [hb]
      rw [if_pos hidx]
      simp [List.get_eq_getElem]
    · have hklt : k < xs.length := by omega
      have hne : (s.front + (k : Int)) % (s.cap : Int) ≠ s.back % (s.cap : Int) := by
        rw [hb]
        intro hcontra
        have := emod_add_inj (f := s.front) (by exact_mod_cast hcap)
          (Int.natCast_nonneg k) (by exact_mod_cast lt_trans hklt hroom)
          (Int.natCast_nonneg xs.length) (by exact_mod_cast hroom) hcontra
        exact hke (by exact_mod_cast this)
      rw [if_neg hne, hslot k hklt]
      simp [List.get_eq_getElem, List.getElem_append_left hklt]

/-- `Worker::push` appends the task to the abstract contents. -/
theorem represents_push {T : Type} [Inhabited T] {s : Worker T} {xs : List T} (x : T)
    (h : Represents s xs) : Represents (s.push x) (xs ++ [x]) := by
  by_cases hfull : (s.cap : Int) ≤ s.back - s.front
  · have hfull' : xs.length = s.cap := by
      have hb := h.1
      have := h.2.1
      omega
    have h1 : Represents (s.resize (2 * s.cap)) xs :=
      represents_resize h (by omega) (by have := h.2.2.1; omega)
    have hroom : xs.length < (s.resize (2 * s.cap)).cap := by
      have := h.2.2.1
      simp only [Worker.resize_cap]
      omega
    have hw := represents_write x h1 hroom
    simpa only [Worker.push, if_pos hfull, Worker.resize_back, Worker.resize_front,
      Worker.resize_cap, Worker.resize_flavor] using hw
  · have hroom : xs.length < s.cap := by
      have hb := h.1
      omega
    have hw := represents_write x h hroom
    simpa only [Worker.push, if_neg hfull] using hw

/-- Pushing a whole list appends it. -/
theorem represents_pushAll {T : Type} [Inhabited T] {ys : List T} :
    ∀ {s : Worker T} {xs : List T}, Represents s xs →
      Represents (pushAll s ys) (xs ++ ys) := by
  induction ys with
  | nil => intro s xs h; simpa [pushAll] using h
  | cons y ys ih =>
    intro s xs h
    have h1 := represents_push y h
    have h2 := ih h1
    simpa [pushAll, List.foldl_cons, List.append_assoc] using h2

@[simp] theorem pushAll_front {T : Type} [Inhabited T] (ys : List T) :
    ∀ s : Worker T, (pushAll s ys).front = s.front := by
  induction ys with
  | nil => intro s; rfl
  | cons y ys ih =>
    intro s
    simp [pushAll, List.foldl_cons] at ih ⊢
    rw [ih]
    simp

@[simp] theorem pushAll_flavor {T : Type} [Inhabited T] (ys : List T) :
    ∀ s : Worker T, (pushAll s ys).flavor = s.flavor := by
  induction ys with
  | nil => intro s; rfl
  | cons y ys ih =>
    intro s
    simp [pushAll, List.foldl_cons] at ih ⊢
    rw [ih]
    simp

/-- A FIFO pop on an empty worker returns none and leaves the state
untouched. -/
theorem popFifo_nil {T : Type} [Inhabited T] {s : Worker T}
    (h : Represents s []) : s.popFifo = (none, s) := by
  have hb := h.1
  simp only [List.length_nil, Nat.cast_zero, add_zero] at hb
  simp [Worker.popFifo, hb]

/-- A FIFO pop on a non-empty worker takes the oldest task. -/
theorem popFifo_cons {T : Type} [Inhabited T] {s : Worker T} {x : T} {xs : List T}
    (h : Represents s (x :: xs)) :
    s.popFifo.1 = some x ∧ Represents s.popFifo.2 xs ∧ s.popFifo.2.flavor = s.flavor := by
  obtain ⟨hb, hl, hcap, hslot⟩ := h
  simp only [List.length_cons] at hb hl
  have hne : ¬s.back ≤ s.front := by omega
  have hx : s.buf (s.front % (s.cap : Int)) = x := by
    have h0 := hslot 0 (by simp)
    simpa using h0
  have hrep : Represents { s with front := s.front + 1 } xs := by
    refine ⟨by dsimp only; omega, by dsimp only; omega, hcap, ?_⟩
    intro k hk
    dsimp only
    have hidx : s.front + 1 + (k : Int) = s.front + ((k + 1 : Nat) : Int) := by
      push_cast
      ring
    rw [hidx, hslot (k + 1) (by simp only [List.length_cons]; omega)]
    simp [List.get_eq_getElem]
  constructor
  · simp [Worker.popFifo, if_neg hne, hx]
  constructor
  · simp only [Worker.popFifo, if_neg hne]
    exact represents_maybeShrink hrep
  · simp [Worker.popFifo, if_neg hne]

/-- A LIFO pop on an empty worker returns none. -/
theorem popLifo_nil {T : Type} [Inhabited T] {s : Worker T}
    (h : Represents s []) : s.popLifo.1 = none := by
  have hb := h.1
  simp only [List.length_nil, Nat.cast_zero, add_zero] at hb
  have : s.back - 1 < s.front := by omega
  simp [Worker.popLifo, if_pos this]

/-- A LIFO pop on a non-empty worker takes the youngest task. -/
theorem popLifo_concat {T : Type} [Inhabited T] {s : Worker T} {y : T} {xs : List T}
    (h : Represents s (xs ++ [y])) :
    s.popLifo.1 = some y ∧ Represents s.popLifo.2 xs ∧ s.popLifo.2.flavor = s.flavor := by
  obtain ⟨hb, hl, hcap, hslot⟩ := h
  simp only [List.length_append, List.length_singleton] at hb hl
  have hbfr : ¬s.back - 1 < s.front := by omega
  have hy : s.buf ((s.back - 1) % (s.cap : Int)) = y := by
    have hidx : s.back - 1 = s.front + (xs.length : Int) := by omega
    rw [hidx, hslot xs.length (by simp)]
    simp [List.get_eq_getElem]
  by_cases hone : s.front < s.back - 1
  · -- more than one task remains
    have hxs : xs ≠ [] := by
      intro hnil
      subst hnil
      simp at hb
      omega
    have hrep : Represents { s with back := s.back - 1 } xs := by
      refine ⟨by dsimp only; omega, by dsimp only; omega, hcap, ?_⟩
      intro k hk
      dsimp only
      rw [hslot k (by simp only [List.length_append, List.length_singleton]; omega)]
      simp [List.get_eq_getElem, List.getElem_append_left hk]
    refine ⟨?_, ?_, ?_⟩
    · simp [Worker.popLifo, if_neg hbfr, if_pos hone, hy]
    · simp only [Worker.popLifo, if_neg hbfr, if_pos hone]
      exact represents_maybeShrink hrep
    · simp [Worker.popLifo, if_neg hbfr, if_pos hone]
  · -- exactly one task remains: xs = []
    have hxs : xs = [] := by
      cases xs with
      | nil => rfl
      | cons a t =>
        exfalso
        simp only [List.length_cons] at hb
        omega
    subst hxs
    have hrep : Represents { s with front := s.front + 1, back := s.front + 1 } [] := by
      refine ⟨by dsimp only; simp, by omega, hcap, ?_⟩
      intro k hk
      simp at hk
    refine ⟨?_, ?_, ?_⟩
    · simp [Worker.popLifo, if_neg hbfr, if_neg hone, hy]
    · simp only [Worker.popLifo, if_neg hbfr, if_neg hone]
      exact represents_maybeShrink hrep
    · simp [Worker.popLifo, if_neg hbfr, if_neg hone]

/-- An uncontended steal on an empty worker reports `Empty` and leaves the
state untouched; in fact any steal on an empty worker does. -/
theorem steal_nil {T : Type} [Inhabited T] {s : Worker T} (c : Bool)
    (h : Represents s []) : s.steal c = (.Empty, s) := by
  have hb := h.1
  simp only [List.length_nil, Nat.cast_zero, add_zero] at hb
  simp [Worker.steal, hb]

/-- An uncontended steal on a non-empty worker takes the oldest task. -/
theorem steal_cons {T : Type} [Inhabited T] {s : Worker T} {x : T} {xs : List T}
    (h : Represents s (x :: xs)) :
    (s.steal true).1 = .Success x ∧ Represents (s.steal true).2 xs ∧
      (s.steal true).2.flavor = s.flavor := by
  obtain ⟨hb, hl, hcap, hslot⟩ := h
  simp only [List.length_cons] at hb hl
  have hne : ¬s.back ≤ s.front := by omega
  have hx : s.buf (s.front % (s.cap : Int)) = x := by
    have h0 := hslot 0 (by simp)
    simpa using h0
  have hrep : Represents { s with front := s.front + 1 } xs := by
    refine ⟨by dsimp only; omega, by dsimp only; omega, hcap, ?_⟩
    intro k hk
    dsimp only
    have hidx : s.front + 1 + (k : Int) = s.front + ((k + 1 : Nat) : Int) := by
      push_cast
      ring
    rw [hidx, hslot (k + 1) (by simp only [List.length_cons]; omega)]
    simp [List.get_eq_getElem]
  refine ⟨?_, ?_, ?_⟩
  · simp [Worker.steal, if_neg hne, hx]
  · simpa only [Worker.steal, if_neg hne, if_pos rfl] using hrep
  · simp [Worker.steal, if_neg hne]

theorem popRun_succ_fst {T : Type} [Inhabited T] (s : Worker T) (n : Nat) :
    (popRun s (n + 1)).1 = s.pop.1 :: (popRun s.pop.2 n).1 := rfl

theorem stealRun_succ_fst {T : Type} [Inhabited T] (s : Worker T) (n : Nat) :
    (stealRun s (n + 1)).1 = (s.steal true).1 :: (stealRun (s.steal true).2 n).1 := rfl

/-- From a state holding `xs`, a FIFO owner drains `xs` in push order and
then sees none. -/
theorem popRun_fifo {T : Type} [Inhabited T] :
    ∀ {xs : List T} {s : Worker T}, Represents s xs → s.flavor = .Fifo →
      (popRun s (xs.length + 1)).1 = xs.map some ++ [none] := by
  intro xs
  induction xs with
  | nil =>
    intro s h hf
    have hp := popFifo_nil h
    simp [popRun, Worker.pop, hf, hp]
  | cons x t ih =>
    intro s h hf
    obtain ⟨h1, h2, h3⟩ := popFifo_cons h
    have hstep : s.pop = s.popFifo := by
      simp [Worker.pop, hf]
    have htail := ih h2 (by rw [h3, hf])
    rw [List.length_cons, popRun_succ_fst, hstep, h1, htail]
    simp

/-- From a state holding `xs`, a LIFO owner drains `xs` in reverse push
order and then sees none. -/
theorem popRun_lifo {T : Type} [Inhabited T] :
    ∀ {xs : List T} {s : Worker T}, Represents s xs → s.flavor = .Lifo →
      (popRun s (xs.length + 1)).1 = xs.reverse.map some ++ [none] := by
  intro xs
  induction xs using List.reverseRecOn with
  | nil =>
    intro s h hf
    have hp := popLifo_nil h
    simp only [popRun, Worker.pop, hf, List.length_nil]
    simp [hp]
  | append_singleton t y ih =>
    intro s h hf
    obtain ⟨h1, h2, h3⟩ := popLifo_concat h
    have hstep : s.pop = s.popLifo := by
      simp [Worker.pop, hf]
    have htail := ih h2 (by rw [h3, hf])
    rw [List.length_append, List.length_singleton, popRun_succ_fst, hstep, h1, htail]
    simp

/-- From a state holding `xs`, uncontended steals drain `xs` in push order
(oldest first) and then see `Empty`. -/
theorem stealRun_spec {T : Type} [Inhabited T] :
    ∀ {xs : List T} {s : Worker T}, Represents s xs →
      (stealRun s (xs.length + 1)).1 = xs.map Steal.Success ++ [.Empty] := by
  intro xs
  induction xs with
  | nil =>
    intro s h
    have hp := steal_nil true h
    simp [stealRun, hp]
  | cons x t ih =>
    intro s h
    obtain ⟨h1, h2, _⟩ := steal_cons h
    have htail := ih h2
    rw [List.length_cons, stealRun_succ_fst, h1, htail]
    simp

/-- A fresh injector is empty. -/
theorem injRepresents_new (T : Type) [Inhabited T] :
    InjRepresents (Injector.new (T := T)) [] := by
  refine ⟨by simp [Injector.new], ?_⟩
  intro k hk
  simp at hk

/-- `Injector::push` appends the task to the abstract contents. -/
theorem injRepresents_push {T : Type} {q : Injector T} {xs : List T} (x : T)
    (h : InjRepresents q xs) : InjRepresents (q.push x) (xs ++ [x]) := by
  obtain ⟨ht, hslot⟩ := h
  refine ⟨by simp [Injector.push, ht]; omega, ?_⟩
  intro k hk
  simp only [List.length_append, List.length_singleton] at hk
  dsimp only [Injector.push]
  by_cases hke : k = xs.length
  · subst hke
    rw [if_pos (by omega)]
    simp [List.get_eq_getElem]
  · have hklt : k < xs.length := by omega
    rw [if_neg (by omega), hslot k hklt]
    simp [List.get_eq_getElem, List.getElem_append_left hklt]

/-- Pushing a whole list into an injector appends it. -/
theorem injRepresents_pushAll {T : Type} {ys : List T} :
    ∀ {q : Injector T} {xs : List T}, InjRepresents q xs →
      InjRepresents (injPushAll q ys) (xs ++ ys) := by
  induction ys with
  | nil => intro q xs h; simpa [injPushAll] using h
  | cons y ys ih =>
    intro q xs h
    have h1 := injRepresents_push y h
    have h2 := ih h1
    simpa [injPushAll, List.foldl_cons, List.append_assoc] using h2

/-- A steal on an empty injector reports `Empty` and leaves the state
untouched. -/
theorem injSteal_nil {T : Type} {q : Injector T} (c : Bool)
    (h : InjRepresents q []) : q.steal c = (.Empty, q) := by
  have ht := h.1
  simp only [List.length_nil, add_zero] at ht
  simp [Injector.steal, ht]

/-- An uncontended steal on a non-empty injector takes the oldest task. -/
theorem injSteal_cons {T : Type} {q : Injector T} {x : T} {xs : List T}
    (h : InjRepresents q (x :: xs)) :
    (q.steal true).1 = .Success x ∧ InjRepresents (q.steal true).2 xs := by
  obtain ⟨ht, hslot⟩ := h
  simp only [List.length_cons] at ht
  have hne : ¬q.tailIdx ≤ q.headIdx := by omega
  have hx : q.slots q.headIdx = x := by
    have h0 := hslot 0 (by simp)
    simpa using h0
  have hrep : InjRepresents { q with headIdx := q.headIdx + 1 } xs := by
    refine ⟨by dsimp only; omega, ?_⟩
    intro k hk
    dsimp only
    have hidx : q.headIdx + 1 + k = q.headIdx + (k + 1) := by omega
    rw [hidx, hslot (k + 1) (by simp only [List.length_cons]; omega)]
    simp [List.get_eq_getElem]
  refine ⟨?_, ?_⟩
  · simp [Injector.steal, if_neg hne, hx]
  · simpa only [Injector.steal, if_neg hne, if_pos rfl] using hrep

theorem injStealRun_succ_fst {T : Type} (q : Injector T) (n : Nat) :
    (injStealRun q (n + 1)).1 = (q.steal true).1 :: (injStealRun (q.steal true).2 n).1 := rfl

/-- From an injector holding `xs`, uncontended steals drain `xs` in push
order and then see `Empty`. -/
theorem injStealRun_spec {T : Type} :
    ∀ {xs : List T} {q : Injector T}, InjRepresents q xs →
      (injStealRun q (xs.length + 1)).1 = xs.map Steal.Success ++ [.Empty] := by
  intro xs
  induction xs with
  | nil =>
    intro q h
    have hp := injSteal_nil true h
    simp [injStealRun, hp]
  | cons x t ih =>
    intro q h
    obtain ⟨h1, h2⟩ := injSteal_cons h
    have htail := ih h2
    rw [List.length_cons, injStealRun_succ_fst, h1, htail]
    simp

/-- The linear slot read of a batch steal reads the oldest `k` tasks. -/
theorem stolenRun_eq_take {T : Type} [Inhabited T] {s : Worker T} {xs : List T} {k : Nat}
    (h : Represents s xs) (hk : k ≤ xs.length) : s.stolenRun k = xs.take k := by
  obtain ⟨hb, hl, hcap, hslot⟩ := h
  apply List.ext_get
  · simp only [Worker.stolenRun, List.length_map, List.length_range, List.length_take]
    omega
  intro n h1 h2
  have hn : n < k := by
    simpa only [Worker.stolenRun, List.length_map, List.length_range] using h1
  have hnx : n < xs.length := lt_of_lt_of_le hn hk
  have hv := hslot n hnx
  simp only [Worker.stolenRun, List.get_eq_getElem, List.getElem_map, List.getElem_range,
    List.getElem_take]
  rw [hv]
  simp [List.get_eq_getElem]

/-- The batch size is at least one and at most the number of live tasks. -/
theorem batchSize_bounds {T : Type} {s : Worker T} {xs : List T}
    (h : Represents s xs) (hne : xs ≠ []) :
    1 ≤ s.batchSize ∧ s.batchSize ≤ xs.length := by
  have hb := h.1
  have hlen : (s.back - s.front).toNat = xs.length := by omega
  have hxs : 1 ≤ xs.length := by
    cases xs with
    | nil => exact absurd rfl hne
    | cons a t => simp
  unfold Worker.batchSize
  rw [hlen]
  unfold BATCH
  omega

/-- CAS-advancing `front` by `k` removes the `k` oldest tasks. -/
theorem represents_advance {T : Type} {s : Worker T} {xs : List T} {k : Nat}
    (h : Represents s xs) (hk : k ≤ xs.length) :
    Represents { s with front := s.front + (k : Int) } (xs.drop k) := by
  obtain ⟨hb, hl, hcap, hslot⟩ := h
  refine ⟨by dsimp only; simp only [List.length_drop]; omega,
    by simp only [List.length_drop]; omega, hcap, ?_⟩
  intro n hn
  dsimp only
  simp only [List.length_drop] at hn
  have hidx : s.front + (k : Int) + (n : Int) = s.front + ((k + n : Nat) : Int) := by
    push_cast
    ring
  rw [hidx, hslot (k + n) (by omega)]
  simp [List.get_eq_getElem]

/-- Depositing a block into a FIFO destination appends it in source
order. -/
theorem represents_deposit_fifo {T : Type} [Inhabited T] {d : Worker T} {ds : List T}
    (run : List T) (h : Represents d ds) (hf : d.flavor = .Fifo) :
    Represents (d.deposit run) (ds ++ run) := by
  unfold Worker.deposit
  rw [hf]
  exact represents_pushAll h

/-- Depositing a block into a LIFO destination appends it reversed. -/
theorem represents_deposit_lifo {T : Type} [Inhabited T] {d : Worker T} {ds : List T}
    (run : List T) (h : Represents d ds) (hf : d.flavor = .Lifo) :
    Represents (d.deposit run) (ds ++ run.reverse) := by
  unfold Worker.deposit
  rw [hf]
  exact represents_pushAll h

@[simp] theorem deposit_front {T : Type} [Inhabited T] (d : Worker T) (run : List T) :
    (d.deposit run).front = d.front := by
  unfold Worker.deposit
  cases d.flavor
  · exact pushAll_front run d
  · exact pushAll_front run.reverse d

@[simp] theorem deposit_flavor {T : Type} [Inhabited T] (d : Worker T) (run : List T) :
    (d.deposit run).flavor = d.flavor := by
  unfold Worker.deposit
  cases hf : d.flavor
  · show (pushAll d run).flavor = Flavor.Fifo
    rw [pushAll_flavor run d, hf]
  · show (pushAll d run.reverse).flavor = Flavor.Lifo
    rw [pushAll_flavor run.reverse d, hf]

/-- Specification of `Stealer::steal_batch` on a non-empty source with an
uncontended CAS: it succeeds, extracts the `batchSize` oldest tasks from
the source, and deposits them into `dest` per `dest`'s orientation, with
`dest.front` and the tasks already in `dest` untouched. -/
theorem steal_batch_spec {T : Type} [Inhabited T] {s d : Worker T} {xs ds : List T}
    (hs : Represents s xs) (hd : Represents d ds) (hne : xs ≠ []) :
    (s.steal_batch d true).1 = .Success () ∧
    1 ≤ s.batchSize ∧ s.batchSize ≤ xs.length ∧
    Represents (s.steal_batch d true).2.1 (xs.drop s.batchSize) ∧
    (d.flavor = .Fifo → Represents (s.steal_batch d true).2.2 (ds ++ xs.take s.batchSize)) ∧
    (d.flavor = .Lifo →
      Represents (s.steal_batch d true).2.2 (ds ++ (xs.take s.batchSize).reverse)) ∧
    (s.steal_batch d true).2.2.front = d.front ∧
    (s.steal_batch d true).2.2.flavor = d.flavor := by
  obtain ⟨hk1, hk2⟩ := batchSize_bounds hs hne
  have hb := hs.1
  have hxs : 1 ≤ xs.length := le_trans hk1 hk2
  have hnonempty : ¬s.back ≤ s.front := by omega
  have hrun : s.stolenRun s.batchSize = xs.take s.batchSize := stolenRun_eq_take hs hk2
  simp only [Worker.steal_batch, if_neg hnonempty, if_pos rfl, hrun]
  refine ⟨rfl, hk1, hk2, represents_advance hs hk2, ?_, ?_, by simp, by simp⟩
  · intro hf
    exact represents_deposit_fifo _ hd hf
  · intro hf
    exact represents_deposit_lifo _ hd hf

/-- Specification of `Stealer::steal_batch_and_pop` on a non-empty source
with an uncontended CAS: it returns the oldest task directly and deposits
the rest of the batch. -/
theorem steal_batch_and_pop_spec {T : Type} [Inhabited T] {s d : Worker T} {x : T}
    {t ds : List T} (hs : Represents s (x :: t)) (hd : Represents d ds) :
    (s.steal_batch_and_pop d true).1 = .Success x ∧
    Represents (s.steal_batch_and_pop d true).2.1 ((x :: t).drop s.batchSize) ∧
    (d.flavor = .Fifo →
      Represents (s.steal_batch_and_pop d true).2.2 (ds ++ t.take (s.batchSize - 1))) ∧
    (d.flavor = .Lifo →
      Represents (s.steal_batch_and_pop d true).2.2 (ds ++ (t.take (s.batchSize - 1)).reverse)) ∧
    (s.steal_batch_and_pop d true).2.2.front = d.front ∧
    (s.steal_batch_and_pop d true).2.2.flavor = d.flavor := by
  obtain ⟨hk1, hk2⟩ := batchSize_bounds hs (by simp)
  have hb := hs.1
  have hnonempty : ¬s.back ≤ s.front := by
    simp only [List.length_cons] at hb
    omega
  have hrun : s.stolenRun s.batchSize = x :: t.take (s.batchSize - 1) := by
    rw [stolenRun_eq_take hs hk2]
    obtain ⟨m, hm⟩ : ∃ m, s.batchSize = m + 1 := ⟨s.batchSize - 1, by omega⟩
    rw [hm]
    simp [List.take_succ_cons, hm]
  simp only [Worker.steal_batch_and_pop, if_neg hnonempty, if_pos rfl, hrun]
  refine ⟨rfl, represents_advance hs hk2, ?_, ?_, by simp, by simp⟩
  · intro hf
    exact represents_deposit_fifo _ hd hf
  · intro hf
    exact represents_deposit_lifo _ hd hf

/-- The linear slot read of an injector batch steal reads the oldest `k`
tasks. -/
theorem injStolenRun_eq_take {T : Type} {q : Injector T} {xs : List T} {k : Nat}
    (h : InjRepresents q xs) (hk : k ≤ xs.length) : q.stolenRun k = xs.take k := by
  obtain ⟨ht, hslot⟩ := h
  apply List.ext_get
  · simp only [Injector.stolenRun, List.length_map, List.length_range, List.length_take]
    omega
  intro n h1 h2
  have hn : n < k := by
    simpa only [Injector.stolenRun, List.length_map, List.length_range] using h1
  have hnx : n < xs.length := lt_of_lt_of_le hn hk
  have hv := hslot n hnx
  simp only [Injector.stolenRun, List.get_eq_getElem, List.getElem_map, List.getElem_range,
    List.getElem_take]
  rw [hv]
  simp [List.get_eq_getElem]

/-- The injector batch size is at least one and at most the number of live
tasks. -/
theorem injBatchSize_bounds {T : Type} {q : Injector T} {xs : List T}
    (h : InjRepresents q xs) (hne : xs ≠ []) :
    1 ≤ q.batchSize ∧ q.batchSize ≤ xs.length := by
  have ht := h.1
  have hxs : 1 ≤ xs.length := by
    cases xs with
    | nil => exact absurd rfl hne
    | cons a t => simp
  have hmod : q.headIdx % BLOCK < BLOCK := Nat.mod_lt _ (by norm_num [BLOCK])
  unfold Injector.batchSize
  unfold BATCH BLOCK
  unfold BLOCK at hmod
  omega

/-- Advancing the injector's head index by `k` removes the `k` oldest
tasks. -/
theorem injRepresents_advance {T : Type} {q : Injector T} {xs : List T} {k : Nat}
    (h : InjRepresents q xs) (hk : k ≤ xs.length) :
    InjRepresents { q with headIdx := q.headIdx + k } (xs.drop k) := by
  obtain ⟨ht, hslot⟩ := h
  refine ⟨by dsimp only; simp only [List.length_drop]; omega, ?_⟩
  intro n hn
  dsimp only
  simp only [List.length_drop] at hn
  have hidx : q.headIdx + k + n = q.headIdx + (k + n) := by omega
  rw [hidx, hslot (k + n) (by omega)]
  simp [List.get_eq_getElem]

/-- Specification of `Injector::steal_batch` on a non-empty injector with
an uncontended reservation: it succeeds, extracts the `batchSize` oldest
tasks, and deposits them into `dest` per `dest`'s orientation, with
`dest.front` and the tasks already in `dest` untouched. -/
theorem inj_steal_batch_spec {T : Type} [Inhabited T] {q : Injector T} {d : Worker T}
    {xs ds : List T} (hq : InjRepresents q xs) (hd : Represents d ds) (hne : xs ≠ []) :
    (q.steal_batch d true).1 = .Success () ∧
    1 ≤ q.batchSize ∧ q.batchSize ≤ xs.length ∧
    InjRepresents (q.steal_batch d true).2.1 (xs.drop q.batchSize) ∧
    (d.flavor = .Fifo → Represents (q.steal_batch d true).2.2 (ds ++ xs.take q.batchSize)) ∧
    (d.flavor = .Lifo →
      Represents (q.steal_batch d true).2.2 (ds ++ (xs.take q.batchSize).reverse)) ∧
    (q.steal_batch d true).2.2.front = d.front ∧
    (q.steal_batch d true).2.2.flavor = d.flavor := by
  obtain ⟨hk1, hk2⟩ := injBatchSize_bounds hq hne
  have ht := hq.1
  have hxs : 1 ≤ xs.length := le_trans hk1 hk2
  have hnonempty : ¬q.tailIdx ≤ q.headIdx := by omega
  have hrun : q.stolenRun q.batchSize = xs.take q.batchSize := injStolenRun_eq_take hq hk2
  simp only [Injector.steal_batch, if_neg hnonempty, if_pos rfl, hrun]
  refine ⟨rfl, hk1, hk2, injRepresents_advance hq hk2, ?_, ?_, by simp, by simp⟩
  · intro hf
    exact represents_deposit_fifo _ hd hf
  · intro hf
    exact represents_deposit_lifo _ hd hf

/-- Specification of `Injector::steal_batch_and_pop` on a non-empty
injector with an uncontended reservation: the oldest task comes back
directly and the rest of the batch goes to `dest`. -/
theorem inj_steal_batch_and_pop_spec {T : Type} [Inhabited T] {q : Injector T} {d : Worker T}
    {x : T} {t ds : List T} (hq : InjRepresents q (x :: t)) (hd : Represents d ds) :
    (q.steal_batch_and_pop d true).1 = .Success x ∧
    InjRepresents (q.steal_batch_and_pop d true).2.1 ((x :: t).drop q.batchSize) ∧
    (d.flavor = .Fifo →
      Represents (q.steal_batch_and_pop d true).2.2 (ds ++ t.take (q.batchSize - 1))) ∧
    (d.flavor = .Lifo →
      Represents (q.steal_batch_and_pop d true).2.2 (ds ++ (t.take (q.batchSize - 1)).reverse)) ∧
    (q.steal_batch_and_pop d true).2.2.front = d.front ∧
    (q.steal_batch_and_pop d true).2.2.flavor = d.flavor := by
  obtain ⟨hk1, hk2⟩ := injBatchSize_bounds hq (by simp)
  have ht := hq.1
  have hnonempty : ¬q.tailIdx ≤ q.headIdx := by
    simp only [List.length_cons] at ht
    omega
  have hrun : q.stolenRun q.batchSize = x :: t.take (q.batchSize - 1) := by
    rw [injStolenRun_eq_take hq hk2]
    obtain ⟨m, hm⟩ : ∃ m, q.batchSize = m + 1 := ⟨q.batchSize - 1, by omega⟩
    rw [hm]
    simp [List.take_succ_cons, hm]
  simp only [Injector.steal_batch_and_pop, if_neg hnonempty, if_pos rfl, hrun]
  refine ⟨rfl, injRepresents_advance hq hk2, ?_, ?_, by simp, by simp⟩
  · intro hf
    exact represents_deposit_fifo _ hd hf
  · intro hf
    exact represents_deposit_lifo _ hd hf

/-- Folding over only `Empty` results yields `Empty` (or `Retry` if one
was already pending). -/
theorem collectGo_all_empty {T : Type} :
    ∀ (l : List (Steal T)), (∀ s ∈ l, s = .Empty) →
      ∀ r, collectGo l r = if r then .Retry else .Empty := by
  intro l
  induction l with
  | nil => intro _ r; rfl
  | cons s rest ih =>
    intro h r
    have hs : s = .Empty := h s (by simp)
    subst hs
    have := ih (fun u hu => h u (by simp [hu]))
    simpa [collectGo] using this r

/-- The first `Success` in the sequence short-circuits the fold. -/
theorem collectGo_first_success {T : Type} :
    ∀ (pre : List (Steal T)) (t : T) (post : List (Steal T)) (r : Bool),
      (∀ s ∈ pre, s.success = none) →
      collectGo (pre ++ .Success t :: post) r = .Success t := by
  intro pre
  induction pre with
  | nil => intro t post r _; rfl
  | cons s rest ih =>
    intro t post r h
    have hs := h s (by simp)
    have htail : ∀ u ∈ rest, u.success = none := fun u hu => h u (by simp [hu])
    cases s with
    | Empty => simpa [collectGo] using ih t post r htail
    | Retry => simpa [collectGo] using ih t post true htail
    | Success u => simp [Steal.success] at hs

/-- A pending or encountered `Retry` keeps the fold away from `Empty`. -/
theorem collectGo_retry {T : Type} :
    ∀ (l : List (Steal T)) (r : Bool), (r = true ∨ .Retry ∈ l) →
      collectGo l r ≠ .Empty := by
  intro l
  induction l with
  | nil =>
    intro r h
    rcases h with h | h
    · subst h
      simp [collectGo]
    · simp at h
  | cons s rest ih =>
    intro r h
    cases s with
    | Empty =>
      have : r = true ∨ .Retry ∈ rest := by
        rcases h with h | h
        · exact Or.inl h
        · simp at h
          exact Or.inr h
      simpa [collectGo] using ih r this
    | Retry => simpa [collectGo] using ih true (Or.inl rfl)
    | Success u => simp [collectGo]

@[simp] theorem stolenRun_length {T : Type} (s : Worker T) (k : Nat) :
    (s.stolenRun k).length = k := by
  simp [Worker.stolenRun]

theorem batchSize_pos {T : Type} (s : Worker T) : 1 ≤ s.batchSize := by
  unfold Worker.batchSize BATCH
  omega

@[simp] theorem injStolenRun_length {T : Type} (q : Injector T) (k : Nat) :
    (q.stolenRun k).length = k := by
  simp [Injector.stolenRun]

theorem injBatchSize_pos {T : Type} (q : Injector T) : 1 ≤ q.batchSize := by
  have hmod : q.headIdx % BLOCK < BLOCK := Nat.mod_lt _ (by norm_num [BLOCK])
  unfold Injector.batchSize
  unfold BATCH BLOCK
  unfold BLOCK at hmod
  omega

/-! The claims. -/

/-- Claim C2: owner pop order follows the orientation: for every sequence
of pushes x₁ … xₙ into a Worker followed by n owner pops with no
intervening steals, a FIFO worker returns x₁ … xₙ in order and a LIFO
worker returns xₙ … x₁, and in both cases the (n+1)-th pop returns
none. -/
theorem C2_owner_pop_order (xs : List Nat) :
    (popRun (pushAll Worker.new_fifo xs) (xs.length + 1)).1 = xs.map some ++ [none] ∧
    (popRun (pushAll Worker.new_lifo xs) (xs.length + 1)).1 = xs.reverse.map some ++ [none] := by
  constructor
  · exact popRun_fifo (by simpa using represents_pushAll (represents_new_fifo Nat))
      (by simp [Worker.new_fifo])
  · exact popRun_lifo (by simpa using represents_pushAll (represents_new_lifo Nat))
      (by simp [Worker.new_lifo])

/-- Claim C3: stealer order is oldest-first regardless of the worker's
orientation: with no concurrent pops, repeated successful steals return
tasks in push order, and in particular, after pushing 1,2,3 into a LIFO
worker, steal returns Success 1 and the owner's subsequent pops return 3
then 2 then none. -/
theorem C3_stealer_order (xs : List Nat) :
    (stealRun (pushAll Worker.new_fifo xs) (xs.length + 1)).1 =
      xs.map Steal.Success ++ [.Empty] ∧
    (stealRun (pushAll Worker.new_lifo xs) (xs.length + 1)).1 =
      xs.map Steal.Success ++ [.Empty] ∧
    ((pushAll Worker.new_lifo [1, 2, 3]).steal true).1 = .Success 1 ∧
    (popRun ((pushAll Worker.new_lifo [1, 2, 3]).steal true).2 3).1 =
      [some 3, some 2, none] := by
  refine ⟨stealRun_spec (by simpa using represents_pushAll (represents_new_fifo Nat)),
    stealRun_spec (by simpa using represents_pushAll (represents_new_lifo Nat)), ?_, ?_⟩
  · decide
  · decide

/-- Claim C6: the Injector is FIFO: with a single producer and single
consumer, steal returns tasks in push order, and once all pushed tasks
have been stolen the next steal returns Empty; in particular after pushes
1,2 the first two steals return Success 1 then Success 2 and the third
returns Empty. -/
theorem C6_injector_fifo (xs : List Nat) :
    (injStealRun (injPushAll Injector.new xs) (xs.length + 1)).1 =
      xs.map Steal.Success ++ [.Empty] ∧
    (injStealRun (injPushAll Injector.new [1, 2]) 3).1 =
      [.Success 1, .Success 2, .Empty] := by
  refine ⟨injStealRun_spec (by simpa using injRepresents_pushAll (injRepresents_new Nat)), ?_⟩
  decide

/-- Claim C7: steal results combine like a monoid ordered
Empty < Retry < Success: combining a sequence of Steal values yields Empty
when all are Empty, yields Success as soon as any element is Success, and
yields at least Retry when any element is Retry and none before it
succeeded; pairwise, Empty + Empty = Empty, Success + anything = Success,
and any Retry forces at least Retry. -/
theorem C7_steal_combine (l : List (Steal Nat)) (r : Steal Nat) (x : Nat) :
    ((∀ s ∈ l, s = .Empty) → collectSteals l = .Empty) ∧
    (∀ (pre post : List (Steal Nat)) (t : Nat), (∀ s ∈ pre, s.success = none) →
      collectSteals (pre ++ .Success t :: post) = .Success t) ∧
    (.Retry ∈ l → collectSteals l = .Retry ∨ ∃ u, collectSteals l = .Success u) ∧
    Steal.or_else (.Empty : Steal Nat) (fun _ => .Empty) = .Empty ∧
    Steal.or_else (.Success x) (fun _ => r) = .Success x ∧
    (Steal.or_else .Retry (fun _ => r) = .Retry ∨
      ∃ u, Steal.or_else .Retry (fun _ => r) = .Success u) ∧
    (Steal.or_else r (fun _ => .Retry) = .Retry ∨
      ∃ u, Steal.or_else r (fun _ => .Retry) = .Success u) := by
  refine ⟨?_, ?_, ?_, rfl, rfl, ?_, ?_⟩
  · intro h
    simpa [collectSteals] using collectGo_all_empty l h false
  · intro pre post t h
    exact collectGo_first_success pre t post false h
  · intro h
    have hne := collectGo_retry l false (Or.inr h)
    cases hres : collectSteals l with
    | Empty => exact absurd hres hne
    | Retry => exact Or.inl rfl
    | Success u => exact Or.inr ⟨u, rfl⟩
  · cases r with
    | Empty => exact Or.inl rfl
    | Retry => exact Or.inl rfl
    | Success u => exact Or.inr ⟨u, rfl⟩
  · cases r with
    | Empty => exact Or.inl rfl
    | Retry => exact Or.inl rfl
    | Success u => exact Or.inr ⟨u, rfl⟩

/-- Witness for C7 at concrete inputs. -/
theorem C7_steal_combine_witness :
    collectSteals ([.Empty, .Empty] : List (Steal Nat)) = .Empty ∧
    collectSteals ([.Empty, .Success 3] : List (Steal Nat)) = .Success 3 ∧
    (collectSteals ([.Empty, .Retry] : List (Steal Nat)) = .Retry ∨
      ∃ u, collectSteals ([.Empty, .Retry] : List (Steal Nat)) = .Success u) := by
  refine ⟨(C7_steal_combine [.Empty, .Empty] .Empty 0).1 (by decide), ?_, ?_⟩
  · exact (C7_steal_combine [] .Empty 0).2.1 [.Empty] [] 3 (by decide)
  · exact (C7_steal_combine [.Empty, .Retry] .Empty 0).2.2.1 (by decide)

/-- Claim C4: steal_batch transfers at least one task from a non-empty
source into dest on Success, and preserves relative order stably under
dest's orientation: a FIFO dest receives the transferred tasks at
dest.back in source order; a LIFO dest receives the block reversed so that
a subsequent LIFO pop returns the oldest stolen task first. -/
theorem C4_steal_batch (src dest : Worker Nat) (xs ds : List Nat)
    (hs : Represents src xs) (hd : Represents dest ds) (hne : xs ≠ []) :
    (src.steal_batch dest true).1 = .Success () ∧
    1 ≤ src.batchSize ∧ src.batchSize ≤ xs.length ∧
    Represents (src.steal_batch dest true).2.1 (xs.drop src.batchSize) ∧
    (dest.flavor = .Fifo →
      Represents (src.steal_batch dest true).2.2 (ds ++ xs.take src.batchSize)) ∧
    (dest.flavor = .Lifo →
      Represents (src.steal_batch dest true).2.2 (ds ++ (xs.take src.batchSize).reverse)) ∧
    (dest.flavor = .Lifo → ds = [] →
      ((src.steal_batch dest true).2.2.popLifo).1 = xs.head?) := by
  obtain ⟨h1, hk1, hk2, h4, h5, h6, _, _⟩ := steal_batch_spec hs hd hne
  refine ⟨h1, hk1, hk2, h4, h5, h6, ?_⟩
  intro hf hds
  subst hds
  cases xs with
  | nil => exact absurd rfl hne
  | cons x t =>
    have hrep := h6 hf
    obtain ⟨m, hm⟩ : ∃ m, src.batchSize = m + 1 := ⟨src.batchSize - 1, by omega⟩
    rw [hm, List.take_succ_cons, List.reverse_cons, List.nil_append] at hrep
    have hpop := (popLifo_concat hrep).1
    simpa using hpop

/-- Witness for C4: a FIFO worker holding 1,2,3,4 batch-steals into an
empty FIFO worker; the call succeeds and the destination then holds 1,2
(and pops 1 then 2). -/
theorem C4_steal_batch_witness :
    Represents (pushAll (Worker.new_fifo (T := Nat)) [1, 2, 3, 4]) [1, 2, 3, 4] ∧
    ((pushAll (Worker.new_fifo (T := Nat)) [1, 2, 3, 4]).steal_batch
        Worker.new_fifo true).1 = .Success () ∧
    Represents
      ((pushAll (Worker.new_fifo (T := Nat)) [1, 2, 3, 4]).steal_batch
        Worker.new_fifo true).2.2 [1, 2] ∧
    (popRun ((pushAll (Worker.new_fifo (T := Nat)) [1, 2, 3, 4]).steal_batch
        Worker.new_fifo true).2.2 3).1 = [some 1, some 2, none] := by
  have h := C4_steal_batch (pushAll Worker.new_fifo [1, 2, 3, 4]) Worker.new_fifo
    [1, 2, 3, 4] [] (by decide) (by decide) (by decide)
  exact ⟨by decide, h.1, h.2.2.2.2.1 rfl, by decide⟩

/-- Claim C5: steal_batch_and_pop, on both a Stealer and an Injector,
performs the same batch extraction as steal_batch, returns the first
(oldest) stolen task directly as Success, and deposits the remainder into
dest. -/
theorem C5_steal_batch_and_pop (src dest : Worker Nat) (q : Injector Nat)
    (x : Nat) (t ds : List Nat)
    (hs : Represents src (x :: t)) (hd : Represents dest ds)
    (hq : InjRepresents q (x :: t)) :
    (src.steal_batch_and_pop dest true).1 = .Success x ∧
    Represents (src.steal_batch_and_pop dest true).2.1 ((x :: t).drop src.batchSize) ∧
    (dest.flavor = .Fifo →
      Represents (src.steal_batch_and_pop dest true).2.2
        (ds ++ t.take (src.batchSize - 1))) ∧
    (dest.flavor = .Lifo →
      Represents (src.steal_batch_and_pop dest true).2.2
        (ds ++ (t.take (src.batchSize - 1)).reverse)) ∧
    (q.steal_batch_and_pop dest true).1 = .Success x ∧
    InjRepresents (q.steal_batch_and_pop dest true).2.1 ((x :: t).drop q.batchSize) ∧
    (dest.flavor = .Fifo →
      Represents (q.steal_batch_and_pop dest true).2.2
        (ds ++ t.take (q.batchSize - 1))) ∧
    (dest.flavor = .Lifo →
      Represents (q.steal_batch_and_pop dest true).2.2
        (ds ++ (t.take (q.batchSize - 1)).reverse)) := by
  obtain ⟨h1, h2, h3, h4, _, _⟩ := steal_batch_and_pop_spec hs hd
  obtain ⟨g1, g2, g3, g4, _, _⟩ := inj_steal_batch_and_pop_spec hq hd
  exact ⟨h1, h2, h3, h4, g1, g2, g3, g4⟩

/-- Witness for C5: from a FIFO worker holding 1,2,3,4 (and an injector
holding the same) into an empty FIFO destination, the call returns
Success 1 and the destination then holds 2 (and pops 2). -/
theorem C5_steal_batch_and_pop_witness :
    ((pushAll (Worker.new_fifo (T := Nat)) [1, 2, 3, 4]).steal_batch_and_pop
        Worker.new_fifo true).1 = .Success 1 ∧
    Represents
      ((pushAll (Worker.new_fifo (T := Nat)) [1, 2, 3, 4]).steal_batch_and_pop
        Worker.new_fifo true).2.2 [2] ∧
    ((injPushAll (Injector.new (T := Nat)) [1, 2, 3, 4]).steal_batch_and_pop
        Worker.new_fifo true).1 = .Success 1 ∧
    (popRun ((pushAll (Worker.new_fifo (T := Nat)) [1, 2, 3, 4]).steal_batch_and_pop
        Worker.new_fifo true).2.2 2).1 = [some 2, none] := by
  have h := C5_steal_batch_and_pop (pushAll Worker.new_fifo [1, 2, 3, 4]) Worker.new_fifo
    (injPushAll Injector.new [1, 2, 3, 4]) 1 [2, 3, 4] []
    (by decide) (by decide) (by decide)
  exact ⟨h.1, h.2.2.1 rfl, h.2.2.2.2.1, by decide⟩

/-- Claim C8: every steal operation is atomic with respect to its outcome:
a Retry result consumes no slot and leaves the queue contents unchanged, a
Success x result consumes exactly the task x, and an Empty result consumes
nothing and implies the queue was empty at the observation point; Retry is
a result any steal can report (it arises whenever the claiming CAS loses a
race), so callers must treat it as legal. -/
theorem C8_steal_atomicity (w dest : Worker Nat) (q : Injector Nat) (c : Bool)
    (x : Nat) (xs : List Nat) :
    ((w.steal c).1 = .Retry → (w.steal c).2 = w) ∧
    ((w.steal_batch dest c).1 = .Retry →
      (w.steal_batch dest c).2.1 = w ∧ (w.steal_batch dest c).2.2 = dest) ∧
    ((w.steal_batch_and_pop dest c).1 = .Retry →
      (w.steal_batch_and_pop dest c).2.1 = w ∧ (w.steal_batch_and_pop dest c).2.2 = dest) ∧
    ((q.steal c).1 = .Retry → (q.steal c).2 = q) ∧
    ((q.steal_batch dest c).1 = .Retry →
      (q.steal_batch dest c).2.1 = q ∧ (q.steal_batch dest c).2.2 = dest) ∧
    ((q.steal_batch_and_pop dest c).1 = .Retry →
      (q.steal_batch_and_pop dest c).2.1 = q ∧ (q.steal_batch_and_pop dest c).2.2 = dest) ∧
    (Represents w (x :: xs) →
      (w.steal true).1 = .Success x ∧ Represents (w.steal true).2 xs) ∧
    (InjRepresents q (x :: xs) →
      (q.steal true).1 = .Success x ∧ InjRepresents (q.steal true).2 xs) ∧
    ((w.steal c).1 = .Empty → (w.steal c).2 = w ∧ w.is_empty = true) ∧
    ((w.steal_batch dest c).1 = .Empty →
      (w.steal_batch dest c).2.1 = w ∧ (w.steal_batch dest c).2.2 = dest ∧
        w.is_empty = true) ∧
    ((w.steal_batch_and_pop dest c).1 = .Empty →
      (w.steal_batch_and_pop dest c).2.1 = w ∧ (w.steal_batch_and_pop dest c).2.2 = dest ∧
        w.is_empty = true) ∧
    ((q.steal c).1 = .Empty → (q.steal c).2 = q ∧ q.is_empty = true) ∧
    ((q.steal_batch dest c).1 = .Empty →
      (q.steal_batch dest c).2.1 = q ∧ (q.steal_batch dest c).2.2 = dest ∧
        q.is_empty = true) ∧
    ((q.steal_batch_and_pop dest c).1 = .Empty →
      (q.steal_batch_and_pop dest c).2.1 = q ∧ (q.steal_batch_and_pop dest c).2.2 = dest ∧
        q.is_empty = true) ∧
    ((pushAll (Worker.new_fifo (T := Nat)) [1]).steal false).1 = .Retry := by
  refine ⟨?_, ?_, ?_, ?_, ?_, ?_, ?_, ?_, ?_, ?_, ?_, ?_, ?_, ?_, ?_⟩
  · unfold Worker.steal
    split_ifs <;> simp
  · unfold Worker.steal_batch
    split_ifs <;> simp
  · unfold Worker.steal_batch_and_pop
    dsimp only
    split_ifs
    · simp
    · rcases hrun : w.stolenRun w.batchSize with _ | ⟨a, rest⟩ <;> simp
    · simp
  · unfold Injector.steal
    split_ifs <;> simp
  · unfold Injector.steal_batch
    split_ifs <;> simp
  · unfold Injector.steal_batch_and_pop
    dsimp only
    split_ifs
    · simp
    · rcases hrun : q.stolenRun q.batchSize with _ | ⟨a, rest⟩ <;> simp
    · simp
  · intro h
    exact ⟨(steal_cons h).1, (steal_cons h).2.1⟩
  · intro h
    exact injSteal_cons h
  · unfold Worker.steal
    split_ifs with h1 h2 <;> simp [Worker.is_empty, h1]
  · unfold Worker.steal_batch
    split_ifs with h1 h2 <;> simp [Worker.is_empty, h1]
  · unfold Worker.steal_batch_and_pop
    dsimp only
    split_ifs with h1 h2
    · simp [Worker.is_empty, h1]
    · rcases hrun : w.stolenRun w.batchSize with _ | ⟨a, rest⟩
      · exfalso
        have hlen := congrArg List.length hrun
        simp only [stolenRun_length, List.length_nil] at hlen
        have := batchSize_pos w
        omega
      · simp
    · simp
  · unfold Injector.steal
    split_ifs with h1 h2 <;> simp [Injector.is_empty, h1]
  · unfold Injector.steal_batch
    split_ifs with h1 h2 <;> simp [Injector.is_empty, h1]
  · unfold Injector.steal_batch_and_pop
    dsimp only
    split_ifs with h1 h2
    · simp [Injector.is_empty, h1]
    · rcases hrun : q.stolenRun q.batchSize with _ | ⟨a, rest⟩
      · exfalso
        have hlen := congrArg List.length hrun
        simp only [injStolenRun_length, List.length_nil] at hlen
        have := injBatchSize_pos q
        omega
      · simp
    · simp
  · decide

/-- Witness for C8 at concrete inputs: a lost CAS reports Retry and leaves
the worker holding 1,2 untouched; the uncontended steal takes 1; a steal
on a fresh worker reports Empty with the state untouched. -/
theorem C8_steal_atomicity_witness :
    ((pushAll (Worker.new_fifo (T := Nat)) [1, 2]).steal false).2 =
      pushAll (Worker.new_fifo (T := Nat)) [1, 2] ∧
    ((pushAll (Worker.new_fifo (T := Nat)) [1, 2]).steal true).1 = .Success 1 ∧
    ((Worker.new_fifo (T := Nat)).steal false).2 = Worker.new_fifo ∧
    (Worker.new_fifo (T := Nat)).is_empty = true := by
  have h1 := C8_steal_atomicity (pushAll Worker.new_fifo [1, 2]) Worker.new_fifo
    (injPushAll Injector.new [1, 2]) false 1 [2]
  have h2 := C8_steal_atomicity Worker.new_fifo Worker.new_fifo Injector.new false 1 [2]
  refine ⟨h1.1 (by decide), ?_, ?_, ?_⟩
  · exact ((h1.2.2.2.2.2.2.1) (by decide)).1
  · exact (h2.2.2.2.2.2.2.2.2.1 (by decide)).1
  · exact (h2.2.2.2.2.2.2.2.2.1 (by decide)).2

/-- Claim C9: batch transfer into a destination worker modifies dest only
by owner-style writes at dest.back: steal_batch and steal_batch_and_pop
(from a stealer or from an injector, with any CAS outcome) leave
dest.front, dest's orientation, and the tasks already present in dest
unchanged — the new contents are the old list with some block appended. -/
theorem C9_batch_frame (src dest : Worker Nat) (q : Injector Nat) (c : Bool)
    (ds : List Nat) (hd : Represents dest ds) :
    ((src.steal_batch dest c).2.2.front = dest.front ∧
      (src.steal_batch dest c).2.2.flavor = dest.flavor ∧
      ∃ run, Represents (src.steal_batch dest c).2.2 (ds ++ run)) ∧
    ((src.steal_batch_and_pop dest c).2.2.front = dest.front ∧
      (src.steal_batch_and_pop dest c).2.2.flavor = dest.flavor ∧
      ∃ run, Represents (src.steal_batch_and_pop dest c).2.2 (ds ++ run)) ∧
    ((q.steal_batch dest c).2.2.front = dest.front ∧
      (q.steal_batch dest c).2.2.flavor = dest.flavor ∧
      ∃ run, Represents (q.steal_batch dest c).2.2 (ds ++ run)) ∧
    ((q.steal_batch_and_pop dest c).2.2.front = dest.front ∧
      (q.steal_batch_and_pop dest c).2.2.flavor = dest.flavor ∧
      ∃ run, Represents (q.steal_batch_and_pop dest c).2.2 (ds ++ run)) := by
  have hframe : ∀ run : List Nat,
      (dest.deposit run).front = dest.front ∧
      (dest.deposit run).flavor = dest.flavor ∧
      ∃ r2, Represents (dest.deposit run) (ds ++ r2) := by
    intro run
    refine ⟨deposit_front dest run, deposit_flavor dest run, ?_⟩
    cases hf : dest.flavor
    · exact ⟨run, represents_deposit_fifo run hd hf⟩
    · exact ⟨run.reverse, represents_deposit_lifo run hd hf⟩
  have hid : dest.front = dest.front ∧ dest.flavor = dest.flavor ∧
      ∃ r2, Represents dest (ds ++ r2) := ⟨rfl, rfl, [], by simpa using hd⟩
  refine ⟨?_, ?_, ?_, ?_⟩
  · unfold Worker.steal_batch
    split_ifs
    · exact hid
    · exact hframe _
    · exact hid
  · unfold Worker.steal_batch_and_pop
    dsimp only
    split_ifs
    · exact hid
    · rcases hrun : src.stolenRun src.batchSize with _ | ⟨a, rest⟩
      · exact hid
      · exact hframe rest
    · exact hid
  · unfold Injector.steal_batch
    split_ifs
    · exact hid
    · exact hframe _
    · exact hid
  · unfold Injector.steal_batch_and_pop
    dsimp only
    split_ifs
    · exact hid
    · rcases hrun : q.stolenRun q.batchSize with _ | ⟨a, rest⟩
      · exact hid
      · exact hframe rest
    · exact hid

/-- Witness for C9: batch-stealing from a worker holding 1,2,3,4 into a
destination already holding 9 leaves the destination's front and existing
task in place. -/
theorem C9_batch_frame_witness :
    ((pushAll (Worker.new_fifo (T := Nat)) [1, 2, 3, 4]).steal_batch
        (pushAll Worker.new_fifo [9]) true).2.2.front =
      (pushAll (Worker.new_fifo (T := Nat)) [9]).front ∧
    ∃ run, Represents
      ((pushAll (Worker.new_fifo (T := Nat)) [1, 2, 3, 4]).steal_batch
        (pushAll Worker.new_fifo [9]) true).2.2 ([9] ++ run) := by
  have h := C9_batch_frame (pushAll Worker.new_fifo [1, 2, 3, 4])
    (pushAll Worker.new_fifo [9]) (injPushAll Injector.new [1, 2, 3, 4]) true [9]
    (by decide)
  exact ⟨h.1.1, h.1.2.2⟩

/-- Claim C10: in single-threaded use is_empty is exact: true on a freshly
created Worker, Stealer view, or Injector (the stealer reads the same
shared record, so its is_empty is the same function); false immediately
after a push with no intervening removal; and true again exactly when
every pushed task has been removed. -/
theorem C10_is_empty_exact (w : Worker Nat) (q : Injector Nat) (xs : List Nat) (x : Nat) :
    (Worker.new_fifo (T := Nat)).is_empty = true ∧
    (Worker.new_lifo (T := Nat)).is_empty = true ∧
    (Injector.new (T := Nat)).is_empty = true ∧
    (Represents w xs → (w.push x).is_empty = false) ∧
    (InjRepresents q xs → (q.push x).is_empty = false) ∧
    (Represents w xs → (w.is_empty = true ↔ xs = [])) ∧
    (InjRepresents q xs → (q.is_empty = true ↔ xs = [])) := by
  refine ⟨by decide, by decide, by decide, ?_, ?_, ?_, ?_⟩
  · intro h
    have hb := h.1
    simp only [Worker.is_empty, Worker.push_back, Worker.push_front,
      decide_eq_false_iff_not]
    omega
  · intro h
    have ht := h.1
    simp only [Injector.is_empty, Injector.push, decide_eq_false_iff_not]
    omega
  · intro h
    have hb := h.1
    simp only [Worker.is_empty, decide_eq_true_eq]
    constructor
    · intro hle
      have : xs.length = 0 := by omega
      exact List.length_eq_zero.mp this
    · intro hnil
      subst hnil
      simp at hb
      omega
  · intro h
    have ht := h.1
    simp only [Injector.is_empty, decide_eq_true_eq]
    constructor
    · intro hle
      have : xs.length = 0 := by omega
      exact List.length_eq_zero.mp this
    · intro hnil
      subst hnil
      simp at ht
      omega

/-- Witness for C10: is_empty is false on a worker and injector holding 5
after a further push, and exact on the states holding 5. -/
theorem C10_is_empty_exact_witness :
    ((pushAll (Worker.new_fifo (T := Nat)) [5]).push 7).is_empty = false ∧
    ((injPushAll (Injector.new (T := Nat)) [5]).push 7).is_empty = false ∧
    ((pushAll (Worker.new_fifo (T := Nat)) [5]).is_empty = true ↔ [5] = ([] : List Nat)) ∧
    ((injPushAll (Injector.new (T := Nat)) [5]).is_empty = true ↔ [5] = ([] : List Nat)) := by
  have h := C10_is_empty_exact (pushAll Worker.new_fifo [5]) (injPushAll Injector.new [5])
    [5] 7
  exact ⟨h.2.2.2.1 (by decide), h.2.2.2.2.1 (by decide),
    h.2.2.2.2.2.1 (by decide), h.2.2.2.2.2.2 (by decide)⟩

end Crossbeam
